import Mathlib

/-!
Verification of the sort/distinct ordering engine described by
`src/realm/sort_descriptor.hpp`.

The header in the repository declares the data model (`CommonDescriptor`,
`SortDescriptor`, `CommonDescriptor::Sorter`, `DescriptorOrdering`, the
handover patch) and gives inline bodies for `is_valid`, `has_links`,
`any_is_null`, `is_sort`, `is_empty` and `size`; the remaining method bodies
(`Sorter::operator()`, the `execute` overrides, `merge_with`, `append_sort`,
`append_distinct`, `generate_patch`, `create_from_and_consume_patch`,
`get_description`) are only declared there, so those are modelled from the
specification text, as indicated in each doc comment.

Values are embedded as `Option Int` (`none` is the null value); row keys
(`ObjKey`) and column keys (`ColKey`) are embedded as `Nat`.  The external
table collaborators of the spec (value resolution, link traversal, schema
lookup, column names) are a `Table` structure of plain functions.
-/

namespace RealmSort

/-- External table collaborators (spec section 6): link traversal, value
resolution (`none` is a stored null / unset link), schema membership and
column names. -/
structure Table where
  getLink : Nat → Nat → Option Nat
  getValue : Nat → Nat → Option Int
  hasColumn : Nat → Bool
  colName : Nat → String

/-- `CommonDescriptor::IndexPair`: a row key together with its position in
the current view (the `cached_value` field plays no role in the claims and
is omitted). -/
structure IndexPair where
  key : Nat
  idx : Nat
deriving DecidableEq

/-- `CommonDescriptor::Sorter::SortColumn` from the header: per-position
broken-link markers and translated row keys (both empty when the chain has
no links), the final column key, and the ascending flag. -/
structure SortColumn where
  is_null : List Bool
  translated_keys : List Nat
  col_key : Nat
  ascending : Bool
deriving DecidableEq

/-- `CommonDescriptor::Sorter`: the comparator, holding one `SortColumn`
per column chain plus the table the values are fetched from. -/
structure Sorter where
  table : Table
  columns : List SortColumn

/-- Follow a sequence of link columns starting from a row key; `none` when
any hop along the way is unset (spec section 4.2). -/
def resolveLinks (t : Table) : Nat → List Nat → Option Nat
  | k, [] => some k
  | k, c :: rest =>
    match t.getLink k c with
    | none => none
    | some k2 => resolveLinks t k2 rest

/-- Modelled from the spec: the `Sorter` constructor body is not in the
header.  Spec section 4.2: for each chain, walk every row of the view along
the chain's link hops, recording the final reached row key or marking the
row null for this column if any hop is unset; chains of length one need no
indirection (their side arrays stay empty, matching the inline
`has_links`/`any_is_null` code which treats empty arrays as link-free). -/
def mkSortColumn (t : Table) (view : List Nat) (chain : List Nat) (asc : Bool) : SortColumn :=
  if chain.length ≤ 1 then
    { is_null := [], translated_keys := [], col_key := chain.getLastD 0, ascending := asc }
  else
    { is_null := view.map fun k => (resolveLinks t k chain.dropLast).isNone
      translated_keys := view.map fun k => (resolveLinks t k chain.dropLast).getD 0
      col_key := chain.getLastD 0
      ascending := asc }

/-- Effective comparison value of one sort column at a row-in-view entry:
the stored value at the resolved target row, with a broken link giving a
null (spec section 4.2, step 2: a resolved-null and a stored null are both
treated as null). -/
def SortColumn.valueAt (c : SortColumn) (t : Table) (p : IndexPair) : Option Int :=
  if c.translated_keys.isEmpty then
    t.getValue p.key c.col_key
  else if c.is_null.getD p.idx true then
    none
  else
    t.getValue (c.translated_keys.getD p.idx 0) c.col_key

/-- Modelled from the spec: single-column value comparison (spec section
4.2, steps 2-3).  Null compares strictly less than any non-null value
independent of the ascending flag; two nulls are equal; the ascending flag
inverts only non-null-vs-non-null comparisons. -/
def compareVals (asc : Bool) : Option Int → Option Int → Ordering
  | none, none => .eq
  | none, some _ => .lt
  | some _, none => .gt
  | some x, some y =>
    if x = y then .eq
    else if asc then (if x < y then .lt else .gt)
    else (if y < x then .lt else .gt)

/-- Comparison of two row-in-view entries on a single sort column. -/
def compareCol (t : Table) (c : SortColumn) (i j : IndexPair) : Ordering :=
  compareVals c.ascending (c.valueAt t i) (c.valueAt t j)

/-- Lexicographic comparison over the sorter's columns in declared order
(spec section 4.2, steps 1 and 4). -/
def compareColumns (t : Table) : List SortColumn → IndexPair → IndexPair → Ordering
  | [], _, _ => .eq
  | c :: rest, i, j =>
    match compareCol t c i j with
    | .eq => compareColumns t rest i j
    | o => o

/-- Modelled from the spec: `CommonDescriptor::Sorter::operator()` (spec
section 4.2, step 5).  The first differing column decides; if all columns
are equal, `total_ordering` breaks the tie by the entries' fixed positions
in the original view, and otherwise the rows are reported equal. -/
def Sorter.ltPair (s : Sorter) (i j : IndexPair) (total : Bool) : Bool :=
  match compareColumns s.table s.columns i j with
  | .lt => true
  | .gt => false
  | .eq => total && decide (i.idx < j.idx)

/-- `Sorter::has_links` from the header: some column required link
traversal. -/
def Sorter.has_links (s : Sorter) : Bool :=
  s.columns.any fun c => !c.translated_keys.isEmpty

/-- `Sorter::any_is_null` from the header: a column with an empty `is_null`
array contributes `false`; otherwise the per-position marker is read. -/
def Sorter.any_is_null (s : Sorter) (i : IndexPair) : Bool :=
  s.columns.any fun c => if c.is_null.isEmpty then false else c.is_null.getD i.idx false

/-- `CommonDescriptor`: the criteria column chains (`m_column_ids`,
embedded as raw column-key chains). -/
structure CommonDescriptor where
  m_column_ids : List (List Nat)
deriving DecidableEq

/-- Modelled from the spec: the validating `CommonDescriptor` constructor
body is not in the header.  Spec section 7: a descriptor built from an
empty chain list, or any empty inner chain, is marked invalid rather than
raising an error. -/
def CommonDescriptor.ofColumns (chains : List (List Nat)) : CommonDescriptor :=
  if chains.isEmpty || chains.any List.isEmpty then ⟨[]⟩ else ⟨chains⟩

/-- `CommonDescriptor::is_valid` from the header. -/
def CommonDescriptor.is_valid (d : CommonDescriptor) : Bool :=
  !d.m_column_ids.isEmpty

/-- Default-constructed `CommonDescriptor` (`CommonDescriptor() = default`
in the header): the column-id list is empty. -/
def CommonDescriptor.defaultCtor : CommonDescriptor := ⟨[]⟩

/-- `SortDescriptor`: column chains plus one ascending flag per chain. -/
structure SortDescriptor where
  m_column_ids : List (List Nat)
  m_ascending : List Bool
deriving DecidableEq

/-- Modelled from the spec: the validating `SortDescriptor` constructor
body is not in the header.  An empty ascending list defaults to all
ascending (spec section 3); invalidity mirrors `CommonDescriptor`. -/
def SortDescriptor.ofColumns (chains : List (List Nat)) (asc : List Bool) : SortDescriptor :=
  if chains.isEmpty || chains.any List.isEmpty then ⟨[], []⟩
  else ⟨chains, if asc.isEmpty then chains.map (fun _ => true) else asc⟩

/-- `is_valid` on the sort variant (inherited from `CommonDescriptor`). -/
def SortDescriptor.is_valid (d : SortDescriptor) : Bool :=
  !d.m_column_ids.isEmpty

/-- Default-constructed `SortDescriptor` (`SortDescriptor() = default`). -/
def SortDescriptor.defaultCtor : SortDescriptor := ⟨[], []⟩

/-- Build the comparator for a list of (chain, ascending) pairs against a
view's row keys. -/
def mkSorter (t : Table) (view : List Nat) (chains : List (List Nat)) (asc : List Bool) :
    Sorter :=
  ⟨t, (chains.zip asc).map fun p => mkSortColumn t view p.1 p.2⟩

/-- Modelled from the spec: `CommonDescriptor::sorter` (distinct stages
compare with every column ascending, the order being meaningless for
grouping). -/
def CommonDescriptor.sorter (d : CommonDescriptor) (t : Table) (view : List Nat) : Sorter :=
  mkSorter t view d.m_column_ids (d.m_column_ids.map fun _ => true)

/-- Modelled from the spec: `SortDescriptor::sorter` uses the descriptor's
own ascending flags. -/
def SortDescriptor.sorter (d : SortDescriptor) (t : Table) (view : List Nat) : Sorter :=
  mkSorter t view d.m_column_ids d.m_ascending

/-- Stable insertion: place `a` before the first element it is `le` to. -/
def orderedInsert {α : Type} (le : α → α → Bool) (a : α) : List α → List α
  | [] => [a]
  | b :: l => if le a b then a :: b :: l else b :: orderedInsert le a l

/-- Stable insertion sort. -/
def insertionSort {α : Type} (le : α → α → Bool) : List α → List α
  | [] => []
  | a :: l => orderedInsert le a (insertionSort le l)

/-- Non-strict comparator derived from the sorter in total-ordering mode. -/
def sortLe (s : Sorter) (i j : IndexPair) : Bool :=
  !(s.ltPair j i true)

/-- Modelled from the spec: `SortDescriptor::execute` (spec section 4.4:
stably reorder the view by the comparator with `total_ordering = true`;
spec section 7: invalid descriptors are safe no-ops when executed). -/
def SortDescriptor.execute (d : SortDescriptor) (s : Sorter) (v : List IndexPair) :
    List IndexPair :=
  if d.is_valid then insertionSort (sortLe s) v else v

/-- Equivalence test derived from the comparator with
`total_ordering = false`: neither entry is below the other. -/
def eqvB (s : Sorter) (i j : IndexPair) : Bool :=
  !(s.ltPair i j false) && !(s.ltPair j i false)

/-- Walk the list keeping the elements not equivalent to any previously
kept element; `seen` accumulates the kept class representatives. -/
def dedupFirstAux {α : Type} (e : α → α → Bool) : List α → List α → List α
  | [], _ => []
  | p :: rest, seen =>
    if seen.any fun q => e q p then dedupFirstAux e rest seen
    else p :: dedupFirstAux e rest (p :: seen)

/-- Keep the first-encountered element of each equivalence class, dropping
the rest. -/
def dedupFirst {α : Type} (e : α → α → Bool) (l : List α) : List α :=
  dedupFirstAux e l []

/-- Modelled from the spec: `CommonDescriptor::execute` (spec section 4.3:
partition into equivalence classes under the comparator with
`total_ordering = false`, stably retaining only the first-encountered row
of each class; spec section 7: invalid descriptors are safe no-ops). -/
def CommonDescriptor.execute (d : CommonDescriptor) (s : Sorter) (v : List IndexPair) :
    List IndexPair :=
  if d.is_valid then dedupFirst (eqvB s) v else v

/-- Row-in-view entries for a view, numbering positions from `n`. -/
def mkIndexPairsFrom (n : Nat) : List Nat → List IndexPair
  | [] => []
  | k :: rest => ⟨k, n⟩ :: mkIndexPairsFrom (n + 1) rest

/-- Row-in-view entries handed to `execute`: each row key of the view
paired with its position. -/
def mkIndexPairs (view : List Nat) : List IndexPair :=
  mkIndexPairsFrom 0 view

/-- Modelled from the spec: `SortDescriptor::merge_with` appends the other
descriptor's chains and ascending flags to this descriptor's lists in
place (spec section 4.4). -/
def SortDescriptor.merge_with (d other : SortDescriptor) : SortDescriptor :=
  ⟨d.m_column_ids ++ other.m_column_ids, d.m_ascending ++ other.m_ascending⟩

/-- Convenience wrapper: run a sort stage on a view of row keys and return
the reordered row keys. -/
def sortByDescriptor (d : SortDescriptor) (t : Table) (view : List Nat) : List Nat :=
  (d.execute (d.sorter t view) (mkIndexPairs view)).map IndexPair.key

/-- Convenience wrapper: run a distinct stage on a view of row keys. -/
def distinctByDescriptor (d : CommonDescriptor) (t : Table) (view : List Nat) : List Nat :=
  (d.execute (d.sorter t view) (mkIndexPairs view)).map IndexPair.key

/-- One stage of a descriptor stack: either a sort or a distinct
descriptor (the closed tagged variant suggested by spec section 9 for the
virtual `CommonDescriptor`/`SortDescriptor` dispatch). -/
inductive Stage where
  | sortStage (d : SortDescriptor)
  | distinctStage (d : CommonDescriptor)
deriving DecidableEq

/-- `CommonDescriptor::is_sort` / `SortDescriptor::is_sort` from the
header. -/
def Stage.is_sort : Stage → Bool
  | .sortStage _ => true
  | .distinctStage _ => false

/-- `DescriptorOrdering`: the ordered stage stack. -/
structure DescriptorOrdering where
  m_descriptors : List Stage
deriving DecidableEq

/-- Modelled from the spec: `DescriptorOrdering::append_sort` (spec
section 4.5): ignored when invalid; folded via `merge_with` into the last
stage when that stage is a plain sort stage; appended otherwise. -/
def DescriptorOrdering.append_sort (o : DescriptorOrdering) (d : SortDescriptor) :
    DescriptorOrdering :=
  if d.is_valid then
    match o.m_descriptors.getLast? with
    | some (.sortStage last) => ⟨o.m_descriptors.dropLast ++ [.sortStage (last.merge_with d)]⟩
    | _ => ⟨o.m_descriptors ++ [.sortStage d]⟩
  else o

/-- Modelled from the spec: `DescriptorOrdering::append_distinct` (spec
section 4.5): ignored when invalid, otherwise always appended as a new
independent stage. -/
def DescriptorOrdering.append_distinct (o : DescriptorOrdering) (d : CommonDescriptor) :
    DescriptorOrdering :=
  if d.is_valid then ⟨o.m_descriptors ++ [.distinctStage d]⟩ else o

/-- Run one stage on a view of row keys (spec section 4.5 execution
contract: build the stage's comparator against the current view and apply
`execute`). -/
def runStage (t : Table) (view : List Nat) : Stage → List Nat
  | .sortStage d => sortByDescriptor d t view
  | .distinctStage d => distinctByDescriptor d t view

/-- Apply each stage of the stack strictly in order, the output of one
stage feeding the next (spec section 4.5). -/
def DescriptorOrdering.executeStack (o : DescriptorOrdering) (t : Table) (view : List Nat) :
    List Nat :=
  o.m_descriptors.foldl (runStage t) view

/-- Modelled from the spec: chain rendering inside `get_description`
(column-name-qualified chains, spec section 4.4). -/
def chainDescription (t : Table) (chain : List Nat) : String :=
  String.intercalate "." (chain.map t.colName)

/-- Modelled from the spec: `CommonDescriptor::get_description`. -/
def CommonDescriptor.get_description (d : CommonDescriptor) (t : Table) : String :=
  "DISTINCT(" ++ String.intercalate ", " (d.m_column_ids.map (chainDescription t)) ++ ")"

/-- Modelled from the spec: `SortDescriptor::get_description` (chains with
direction). -/
def SortDescriptor.get_description (d : SortDescriptor) (t : Table) : String :=
  "SORT(" ++ String.intercalate ", "
    ((d.m_column_ids.zip d.m_ascending).map fun p =>
      chainDescription t p.1 ++ (if p.2 then " ASC" else " DESC")) ++ ")"

/-- Description of one stage. -/
def Stage.description (t : Table) : Stage → String
  | .sortStage d => d.get_description t
  | .distinctStage d => d.get_description t

/-- Modelled from the spec: `DescriptorOrdering::get_description`
(concatenation of the stages' descriptions in stack order with a fixed
delimiter, spec section 4.5). -/
def DescriptorOrdering.get_description (o : DescriptorOrdering) (t : Table) : String :=
  String.intercalate " " (o.m_descriptors.map (Stage.description t))

/-- One stage of a handover patch: the stage kind, its raw column-key
chains and, for sort stages, its ascending flags (spec section 4.6). -/
structure StagePatch where
  patchIsSort : Bool
  column_indices : List (List Nat)
  ascending : List Bool
deriving DecidableEq

/-- A handover patch: the table-independent shape of a descriptor stack. -/
structure HandoverPatch where
  stages : List StagePatch
deriving DecidableEq

/-- Record one stage's shape into a patch. -/
def Stage.toPatch : Stage → StagePatch
  | .sortStage d => ⟨true, d.m_column_ids, d.m_ascending⟩
  | .distinctStage d => ⟨false, d.m_column_ids, []⟩

/-- Modelled from the spec: `DescriptorOrdering::generate_patch` (spec
section 4.6): record each stage's kind, chains and flags detached from the
table. -/
def generate_patch (o : DescriptorOrdering) : HandoverPatch :=
  ⟨o.m_descriptors.map Stage.toPatch⟩

/-- Modelled from the spec: rebinding one recorded stage against a new
table; a recorded column that no longer resolves is a recoverable reported
error (spec section 7). -/
def resolveStagePatch (t : Table) (p : StagePatch) : Except String Stage :=
  if p.column_indices.all fun ch => ch.all t.hasColumn then
    if p.patchIsSort then
      .ok (.sortStage (SortDescriptor.ofColumns p.column_indices p.ascending))
    else
      .ok (.distinctStage (CommonDescriptor.ofColumns p.column_indices))
  else
    .error "column no longer exists"

/-- Rebind every recorded stage of a patch against a table. -/
def createFromPatch (t : Table) (p : HandoverPatch) : Except String DescriptorOrdering :=
  (p.stages.mapM (resolveStagePatch t)).map DescriptorOrdering.mk

/-- Modelled from the spec:
`DescriptorOrdering::create_from_and_consume_patch`.  The C++ patch is a
consume-once `unique_ptr`; consumption is modelled as explicit state: the
patch slot is `none` afterwards, and consuming an already-consumed slot is
the reported error of a second consumption. -/
def create_from_and_consume_patch (slot : Option HandoverPatch) (t : Table) :
    Except String DescriptorOrdering × Option HandoverPatch :=
  match slot with
  | none => (.error "patch already consumed", none)
  | some p => (createFromPatch t p, none)

/-- Well-formedness of a sort descriptor relative to a table: what the
constructors establish and patch rebinding needs (non-empty chains, every
column present, one ascending flag per chain). -/
def SortDescriptor.wellFormedOn (d : SortDescriptor) (t : Table) : Bool :=
  !d.m_column_ids.isEmpty &&
    (d.m_column_ids.all fun ch => !ch.isEmpty && ch.all t.hasColumn) &&
    (d.m_ascending.length == d.m_column_ids.length)

/-- Well-formedness of a distinct descriptor relative to a table. -/
def CommonDescriptor.wellFormedOn (d : CommonDescriptor) (t : Table) : Bool :=
  !d.m_column_ids.isEmpty &&
    (d.m_column_ids.all fun ch => !ch.isEmpty && ch.all t.hasColumn)

/-- Well-formedness of a stage relative to a table. -/
def Stage.wellFormedOn : Stage → Table → Bool
  | .sortStage d, t => d.wellFormedOn t
  | .distinctStage d, t => d.wellFormedOn t

/-! ### Basic properties of the value comparator -/

lemma compareVals_swap (asc : Bool) (a b : Option Int) :
    compareVals asc b a = (compareVals asc a b).swap := by
  rcases a with _ | x <;> rcases b with _ | y
  · rfl
  · rfl
  · rfl
  · simp only [compareVals]
    by_cases hxy : x = y
    · subst hxy
      rw [if_pos rfl]
      rfl
    · have hyx : ¬ y = x := fun h => hxy h.symm
      simp only [hxy, hyx, if_false]
      cases asc <;> split_ifs <;> first | rfl | omega

lemma compareVals_eq_iff (asc : Bool) (a b : Option Int) :
    compareVals asc a b = .eq ↔ a = b := by
  rcases a with _ | x <;> rcases b with _ | y
  · simp [compareVals]
  · simp [compareVals]
  · simp [compareVals]
  · simp only [compareVals, Option.some.injEq]
    split_ifs <;> simp_all

lemma compareVals_lt_trans {asc : Bool} {a b c : Option Int}
    (h1 : compareVals asc a b = .lt) (h2 : compareVals asc b c = .lt) :
    compareVals asc a c = .lt := by
  rcases a with _ | x <;> rcases b with _ | y
  · exact Ordering.noConfusion h1
  · rcases c with _ | z
    · exact Ordering.noConfusion h2
    · rfl
  · exact Ordering.noConfusion h1
  · rcases c with _ | z
    · exact Ordering.noConfusion h2
    · simp only [compareVals] at h1 h2 ⊢
      split_ifs at h1 h2 ⊢ <;> first | rfl | omega

lemma compareCol_swap (t : Table) (c : SortColumn) (i j : IndexPair) :
    compareCol t c j i = (compareCol t c i j).swap :=
  compareVals_swap _ _ _

lemma compareCol_eq_iff (t : Table) (c : SortColumn) (i j : IndexPair) :
    compareCol t c i j = .eq ↔ c.valueAt t i = c.valueAt t j :=
  compareVals_eq_iff _ _ _

lemma compareCol_lt_trans {t : Table} {c : SortColumn} {i j k : IndexPair}
    (h1 : compareCol t c i j = .lt) (h2 : compareCol t c j k = .lt) :
    compareCol t c i k = .lt :=
  compareVals_lt_trans h1 h2

/-! ### Properties of the lexicographic column comparison -/

lemma compareColumns_nil (t : Table) (i j : IndexPair) :
    compareColumns t [] i j = .eq := rfl

lemma compareColumns_cons (t : Table) (c : SortColumn) (rest : List SortColumn)
    (i j : IndexPair) :
    compareColumns t (c :: rest) i j =
      (compareCol t c i j).then (compareColumns t rest i j) := by
  show (match compareCol t c i j with
        | .eq => compareColumns t rest i j
        | o => o) = _
  cases compareCol t c i j <;> rfl

lemma compareColumns_swap (t : Table) (cols : List SortColumn) (i j : IndexPair) :
    compareColumns t cols j i = (compareColumns t cols i j).swap := by
  induction cols with
  | nil => rfl
  | cons c rest ih =>
    rw [compareColumns_cons, compareColumns_cons, compareCol_swap, ih,
      Ordering.swap_then]

lemma compareColumns_eq_iff (t : Table) (cols : List SortColumn) (i j : IndexPair) :
    compareColumns t cols i j = .eq ↔ ∀ c ∈ cols, c.valueAt t i = c.valueAt t j := by
  induction cols with
  | nil => simp [compareColumns_nil]
  | cons c rest ih =>
    rw [compareColumns_cons, Ordering.then_eq_eq, ih, compareCol_eq_iff]
    simp

lemma compareColumns_congr_right (t : Table) (cols : List SortColumn) {i j k : IndexPair}
    (h : ∀ c ∈ cols, c.valueAt t j = c.valueAt t k) :
    compareColumns t cols i j = compareColumns t cols i k := by
  induction cols with
  | nil => rfl
  | cons c rest ih =>
    rw [compareColumns_cons, compareColumns_cons]
    have hc : compareCol t c i j = compareCol t c i k := by
      unfold compareCol
      rw [h c (List.mem_cons_self c rest)]
    rw [hc, ih fun c hc => h c (List.mem_cons_of_mem _ hc)]

lemma compareColumns_congr_left (t : Table) (cols : List SortColumn) {i j k : IndexPair}
    (h : ∀ c ∈ cols, c.valueAt t i = c.valueAt t j) :
    compareColumns t cols i k = compareColumns t cols j k := by
  induction cols with
  | nil => rfl
  | cons c rest ih =>
    rw [compareColumns_cons, compareColumns_cons]
    have hc : compareCol t c i k = compareCol t c j k := by
      unfold compareCol
      rw [h c (List.mem_cons_self c rest)]
    rw [hc, ih fun c hc => h c (List.mem_cons_of_mem _ hc)]

lemma compareColumns_eq_trans {t : Table} {cols : List SortColumn} {i j k : IndexPair}
    (h1 : compareColumns t cols i j = .eq) (h2 : compareColumns t cols j k = .eq) :
    compareColumns t cols i k = .eq := by
  rw [compareColumns_eq_iff] at *
  exact fun c hc => (h1 c hc).trans (h2 c hc)

lemma compareColumns_lt_of_lt_of_eq {t : Table} {cols : List SortColumn} {i j k : IndexPair}
    (h1 : compareColumns t cols i j = .lt) (h2 : compareColumns t cols j k = .eq) :
    compareColumns t cols i k = .lt := by
  rw [← compareColumns_congr_right t cols ((compareColumns_eq_iff t cols j k).mp h2)]
  exact h1

lemma compareColumns_lt_of_eq_of_lt {t : Table} {cols : List SortColumn} {i j k : IndexPair}
    (h1 : compareColumns t cols i j = .eq) (h2 : compareColumns t cols j k = .lt) :
    compareColumns t cols i k = .lt := by
  rw [compareColumns_congr_left t cols ((compareColumns_eq_iff t cols i j).mp h1)]
  exact h2

lemma compareColumns_lt_trans {t : Table} {cols : List SortColumn} {i j k : IndexPair}
    (h1 : compareColumns t cols i j = .lt) (h2 : compareColumns t cols j k = .lt) :
    compareColumns t cols i k = .lt := by
  induction cols with
  | nil => exact absurd h1 (by simp [compareColumns_nil])
  | cons c rest ih =>
    rw [compareColumns_cons, Ordering.then_eq_lt] at h1 h2 ⊢
    rcases h1 with h1 | ⟨h1e, h1r⟩ <;> rcases h2 with h2 | ⟨h2e, h2r⟩
    · exact Or.inl (compareCol_lt_trans h1 h2)
    · refine Or.inl ?_
      unfold compareCol at h1 ⊢
      rw [← (compareCol_eq_iff t c j k).mp h2e]
      exact h1
    · refine Or.inl ?_
      unfold compareCol at h2 ⊢
      rw [(compareCol_eq_iff t c i j).mp h1e]
      exact h2
    · refine Or.inr ⟨?_, ih h1r h2r⟩
      rw [compareCol_eq_iff] at h1e h2e ⊢
      exact h1e.trans h2e

lemma compareColumns_eq_symm {t : Table} {cols : List SortColumn} {i j : IndexPair}
    (h : compareColumns t cols i j = .eq) : compareColumns t cols j i = .eq := by
  rw [compareColumns_swap, h]
  rfl

lemma compareColumns_gt_iff (t : Table) (cols : List SortColumn) (i j : IndexPair) :
    compareColumns t cols i j = .gt ↔ compareColumns t cols j i = .lt := by
  constructor
  · intro h
    rw [compareColumns_swap t cols i j, h]
    rfl
  · intro h
    rw [compareColumns_swap t cols j i, h]
    rfl

/-! ### Properties of the full comparator -/

lemma ltPair_def (s : Sorter) (i j : IndexPair) (total : Bool) :
    s.ltPair i j total =
      match compareColumns s.table s.columns i j with
      | .lt => true
      | .gt => false
      | .eq => total && decide (i.idx < j.idx) := rfl

lemma ltPair_eq_true_iff (s : Sorter) (i j : IndexPair) (total : Bool) :
    s.ltPair i j total = true ↔
      compareColumns s.table s.columns i j = .lt ∨
        (compareColumns s.table s.columns i j = .eq ∧ total = true ∧ i.idx < j.idx) := by
  rw [ltPair_def]
  cases compareColumns s.table s.columns i j <;> simp

lemma ltPair_asymm {s : Sorter} {i j : IndexPair} {total : Bool}
    (h : s.ltPair i j total = true) : s.ltPair j i total = false := by
  rw [Bool.eq_false_iff]
  intro habs
  rcases (ltPair_eq_true_iff s i j total).mp h with hc | ⟨hc, _, hidx⟩ <;>
    rcases (ltPair_eq_true_iff s j i total).mp habs with hc' | ⟨hc', _, hidx'⟩
  · rw [(compareColumns_gt_iff s.table s.columns i j).mpr hc'] at hc
    exact Ordering.noConfusion hc
  · rw [compareColumns_eq_symm hc'] at hc
    exact Ordering.noConfusion hc
  · rw [(compareColumns_gt_iff s.table s.columns i j).mpr hc'] at hc
    exact Ordering.noConfusion hc
  · omega

lemma ltPair_trans {s : Sorter} {i j k : IndexPair}
    (h1 : s.ltPair i j true = true) (h2 : s.ltPair j k true = true) :
    s.ltPair i k true = true := by
  rw [ltPair_eq_true_iff] at h1 h2 ⊢
  rcases h1 with h1 | ⟨h1e, _, h1i⟩ <;> rcases h2 with h2 | ⟨h2e, _, h2i⟩
  · exact Or.inl (compareColumns_lt_trans h1 h2)
  · exact Or.inl (compareColumns_lt_of_lt_of_eq h1 h2e)
  · exact Or.inl (compareColumns_lt_of_eq_of_lt h1e h2)
  · exact Or.inr ⟨compareColumns_eq_trans h1e h2e, rfl, Nat.lt_trans h1i h2i⟩

lemma sortLe_total (s : Sorter) (i j : IndexPair) :
    sortLe s i j = true ∨ sortLe s j i = true := by
  cases h : s.ltPair j i true with
  | false => exact Or.inl (by simp [sortLe, h])
  | true => exact Or.inr (by simp [sortLe, ltPair_asymm h])

lemma sortLe_trans {s : Sorter} {i j k : IndexPair}
    (h1 : sortLe s i j = true) (h2 : sortLe s j k = true) : sortLe s i k = true := by
  simp only [sortLe, Bool.not_eq_true'] at h1 h2 ⊢
  by_contra hki
  rw [Bool.not_eq_false] at hki
  rcases (ltPair_eq_true_iff s k i true).mp hki with hc | ⟨hc, _, hidx⟩
  · -- the columns put k strictly below i
    rcases hx : compareColumns s.table s.columns k j with _ | _ | _
    · rw [(ltPair_eq_true_iff s k j true).mpr (Or.inl hx)] at h2
      exact Bool.noConfusion h2
    · -- k equal to j on the columns, hence j strictly below i
      have hji : compareColumns s.table s.columns j i = .lt :=
        compareColumns_lt_of_eq_of_lt (compareColumns_eq_symm hx) hc
      rw [(ltPair_eq_true_iff s j i true).mpr (Or.inl hji)] at h1
      exact Bool.noConfusion h1
    · have hjk : compareColumns s.table s.columns j k = .lt :=
        (compareColumns_gt_iff s.table s.columns k j).mp hx
      have hji : compareColumns s.table s.columns j i = .lt :=
        compareColumns_lt_trans hjk hc
      rw [(ltPair_eq_true_iff s j i true).mpr (Or.inl hji)] at h1
      exact Bool.noConfusion h1
  · -- all columns equal between k and i, and k precedes i in the view
    rcases hx : compareColumns s.table s.columns k j with _ | _ | _
    · rw [(ltPair_eq_true_iff s k j true).mpr (Or.inl hx)] at h2
      exact Bool.noConfusion h2
    · -- k, j, i all equal on the columns: the positions give a contradiction
      have hji : compareColumns s.table s.columns j i = .eq :=
        compareColumns_eq_trans (compareColumns_eq_symm hx) hc
      have hj1 : ¬ (j.idx < i.idx) := fun habs => by
        rw [(ltPair_eq_true_iff s j i true).mpr (Or.inr ⟨hji, rfl, habs⟩)] at h1
        exact Bool.noConfusion h1
      have hj2 : ¬ (k.idx < j.idx) := fun habs => by
        rw [(ltPair_eq_true_iff s k j true).mpr (Or.inr ⟨hx, rfl, habs⟩)] at h2
        exact Bool.noConfusion h2
      omega
    · have hjk : compareColumns s.table s.columns j k = .lt :=
        (compareColumns_gt_iff s.table s.columns k j).mp hx
      have hji : compareColumns s.table s.columns j i = .lt :=
        compareColumns_lt_of_lt_of_eq hjk hc
      rw [(ltPair_eq_true_iff s j i true).mpr (Or.inl hji)] at h1
      exact Bool.noConfusion h1

/-! ### Insertion sort: permutation, sortedness, stability -/

lemma orderedInsert_perm {α : Type} (le : α → α → Bool) (a : α) (l : List α) :
    (orderedInsert le a l).Perm (a :: l) := by
  induction l with
  | nil => exact List.Perm.refl _
  | cons b l ih =>
    simp only [orderedInsert]
    split
    · exact List.Perm.refl _
    · exact (ih.cons b).trans (List.Perm.swap a b l)

lemma insertionSort_perm {α : Type} (le : α → α → Bool) (l : List α) :
    (insertionSort le l).Perm l := by
  induction l with
  | nil => exact List.Perm.refl _
  | cons a l ih => exact (orderedInsert_perm le a _).trans (ih.cons a)

lemma orderedInsert_pairwise {α : Type} {le : α → α → Bool}
    (htot : ∀ x y, le x y = true ∨ le y x = true)
    (htr : ∀ x y z, le x y = true → le y z = true → le x z = true)
    (a : α) {l : List α} (hl : l.Pairwise fun x y => le x y = true) :
    (orderedInsert le a l).Pairwise fun x y => le x y = true := by
  induction l with
  | nil => simp [orderedInsert]
  | cons b l ih =>
    rw [List.pairwise_cons] at hl
    obtain ⟨hb, hl⟩ := hl
    simp only [orderedInsert]
    split
    case isTrue h =>
      rw [List.pairwise_cons]
      refine ⟨?_, List.pairwise_cons.mpr ⟨hb, hl⟩⟩
      intro x hx
      rcases List.mem_cons.mp hx with rfl | hx
      · exact h
      · exact htr a b x h (hb x hx)
    case isFalse h =>
      rw [List.pairwise_cons]
      refine ⟨?_, ih hl⟩
      intro x hx
      have hx' := (orderedInsert_perm le a l).mem_iff.mp hx
      rcases List.mem_cons.mp hx' with rfl | hx'
      · rcases htot x b with hxb | hbx
        · exact absurd hxb h
        · exact hbx
      · exact hb x hx'

lemma insertionSort_pairwise {α : Type} {le : α → α → Bool}
    (htot : ∀ x y, le x y = true ∨ le y x = true)
    (htr : ∀ x y z, le x y = true → le y z = true → le x z = true)
    (l : List α) :
    (insertionSort le l).Pairwise fun x y => le x y = true := by
  induction l with
  | nil => simp [insertionSort]
  | cons a l ih => exact orderedInsert_pairwise htot htr a ih

/-! ### Row-in-view entries -/

lemma mkIndexPairsFrom_map_key (n : Nat) (l : List Nat) :
    (mkIndexPairsFrom n l).map IndexPair.key = l := by
  induction l generalizing n with
  | nil => rfl
  | cons k rest ih => simp [mkIndexPairsFrom, ih]

lemma mkIndexPairsFrom_mem {n : Nat} {l : List Nat} {p : IndexPair}
    (h : p ∈ mkIndexPairsFrom n l) : n ≤ p.idx ∧ l[p.idx - n]? = some p.key := by
  induction l generalizing n with
  | nil => simp [mkIndexPairsFrom] at h
  | cons k rest ih =>
    simp only [mkIndexPairsFrom, List.mem_cons] at h
    rcases h with rfl | h
    · simp
    · obtain ⟨h1, h2⟩ := ih h
      refine ⟨by omega, ?_⟩
      have hstep : p.idx - n = (p.idx - (n + 1)) + 1 := by omega
      rw [hstep]
      simpa using h2

lemma mkIndexPairsFrom_pairwise_idx (n : Nat) (l : List Nat) :
    (mkIndexPairsFrom n l).Pairwise fun a b => a.idx < b.idx := by
  induction l generalizing n with
  | nil => exact List.Pairwise.nil
  | cons k rest ih =>
    simp only [mkIndexPairsFrom]
    rw [List.pairwise_cons]
    refine ⟨fun p hp => ?_, ih (n + 1)⟩
    have h := (mkIndexPairsFrom_mem hp).1
    exact Nat.lt_of_succ_le h

lemma mkIndexPairs_mem {view : List Nat} {p : IndexPair} (h : p ∈ mkIndexPairs view) :
    view[p.idx]? = some p.key := by
  have h2 := (mkIndexPairsFrom_mem (n := 0) h).2
  simpa using h2

lemma mkIndexPairs_pairwise_idx (view : List Nat) :
    (mkIndexPairs view).Pairwise fun a b => a.idx < b.idx :=
  mkIndexPairsFrom_pairwise_idx 0 view

lemma mkIndexPairs_map_key (view : List Nat) :
    (mkIndexPairs view).map IndexPair.key = view :=
  mkIndexPairsFrom_map_key 0 view

lemma perm_pairwise_idx_ne {v out : List IndexPair} (hperm : out.Perm v)
    (hv : v.Pairwise fun a b => a.idx < b.idx) :
    out.Pairwise fun a b => a.idx ≠ b.idx := by
  have hnd : (v.map IndexPair.idx).Nodup :=
    List.pairwise_map.mpr (hv.imp fun h => Nat.ne_of_lt h)
  have hout : (out.map IndexPair.idx).Nodup :=
    ((hperm.map IndexPair.idx).nodup_iff).mpr hnd
  exact List.pairwise_map.mp hout

/-- Claim C1: executing a valid sort stage with the total-ordering
comparator yields a permutation of the input entries (hence of the view's
row keys) that is sorted — no entry precedes another entry that it
compares greater than — and stable: two entries whose columns compare
equal keep their relative order (their positions in the input view). -/
theorem sort_execute_sorted_stable (d : SortDescriptor) (t : Table) (view : List Nat)
    (hv : d.is_valid = true) :
    ((d.execute (d.sorter t view) (mkIndexPairs view)).Perm (mkIndexPairs view)) ∧
    (((d.execute (d.sorter t view) (mkIndexPairs view)).map IndexPair.key).Perm view) ∧
    ((d.execute (d.sorter t view) (mkIndexPairs view)).Pairwise fun a b =>
      (d.sorter t view).ltPair b a true = false) ∧
    ((d.execute (d.sorter t view) (mkIndexPairs view)).Pairwise fun a b =>
      compareColumns t (d.sorter t view).columns a b = .eq → a.idx < b.idx) := by
  have hex : d.execute (d.sorter t view) (mkIndexPairs view) =
      insertionSort (sortLe (d.sorter t view)) (mkIndexPairs view) := by
    simp [SortDescriptor.execute, hv]
  have hperm : (d.execute (d.sorter t view) (mkIndexPairs view)).Perm (mkIndexPairs view) := by
    rw [hex]
    exact insertionSort_perm _ _
  have hsorted0 : (d.execute (d.sorter t view) (mkIndexPairs view)).Pairwise
      fun a b => sortLe (d.sorter t view) a b = true := by
    rw [hex]
    exact insertionSort_pairwise (sortLe_total _)
      (fun x y z hxy hyz => sortLe_trans hxy hyz) _
  have hsorted : (d.execute (d.sorter t view) (mkIndexPairs view)).Pairwise
      fun a b => (d.sorter t view).ltPair b a true = false := by
    refine hsorted0.imp fun h => ?_
    simpa [sortLe] using h
  have hidx : (d.execute (d.sorter t view) (mkIndexPairs view)).Pairwise
      fun a b => a.idx ≠ b.idx :=
    perm_pairwise_idx_ne hperm (mkIndexPairs_pairwise_idx view)
  refine ⟨hperm, ?_, hsorted, ?_⟩
  · have hkey := hperm.map IndexPair.key
    rwa [mkIndexPairs_map_key] at hkey
  · refine (hsorted.and hidx).imp ?_
    rintro a b ⟨hle, hne⟩ hcmp
    have hba : compareColumns (d.sorter t view).table (d.sorter t view).columns b a = .eq :=
      compareColumns_eq_symm hcmp
    by_contra hab
    have hlt : (d.sorter t view).ltPair b a true = true :=
      (ltPair_eq_true_iff _ b a true).mpr (Or.inr ⟨hba, rfl, by omega⟩)
    rw [hlt] at hle
    exact Bool.noConfusion hle

/-- Concrete table used by the witnesses: column 10 holds per-row integer
ages, column 11 holds a second integer attribute, column 20 is a link
column, and every other column is null. -/
def tableW : Table where
  getLink := fun k c => if c = 20 then (if k = 5 then some 1 else none) else none
  getValue := fun k c =>
    if c = 10 then some (if k = 1 then 30 else if k = 2 then 20 else 30)
    else if c = 11 then some (if k = 1 then 2 else 1)
    else if c = 12 then (if k = 1 then none else some 7)
    else none
  hasColumn := fun c => c = 10 || c = 11 || c = 20
  colName := fun c => if c = 10 then "age" else if c = 11 then "b" else "link"

theorem sort_execute_sorted_stable_witness :
    (SortDescriptor.ofColumns [[10]] [false]).is_valid = true ∧
    ((SortDescriptor.ofColumns [[10]] [false]).execute
        ((SortDescriptor.ofColumns [[10]] [false]).sorter tableW [1, 2, 3])
        (mkIndexPairs [1, 2, 3])).Perm (mkIndexPairs [1, 2, 3]) :=
  ⟨by decide,
    (sort_execute_sorted_stable (SortDescriptor.ofColumns [[10]] [false]) tableW [1, 2, 3]
      (by decide)).1⟩

/-! ### Distinct: first occurrences of equivalence classes -/

/-- An element is the first of its equivalence class in `v` when the first
element of `v` equivalent to it is itself. -/
def firstOccB {α : Type} [DecidableEq α] (e : α → α → Bool) (v : List α) (p : α) : Bool :=
  decide (v.find? (fun q => e q p) = some p)

/-- The number of distinct equivalence classes represented in `v`: each
class contributes exactly one first occurrence. -/
def numEquivClasses {α : Type} [DecidableEq α] (e : α → α → Bool) (v : List α) : Nat :=
  (v.filter (firstOccB e v)).length

lemma dedupFirstAux_cons {α : Type} (e : α → α → Bool) (p : α) (rest seen : List α) :
    dedupFirstAux e (p :: rest) seen =
      if seen.any (fun q => e q p) then dedupFirstAux e rest seen
      else p :: dedupFirstAux e rest (p :: seen) := rfl

lemma mem_dedupFirstAux {α : Type} {e : α → α → Bool} :
    ∀ {l seen : List α} {x : α}, x ∈ dedupFirstAux e l seen →
      x ∈ l ∧ (seen.any fun q => e q x) = false := by
  intro l
  induction l with
  | nil =>
    intro seen x h
    simp [dedupFirstAux] at h
  | cons p rest ih =>
    intro seen x h
    rw [dedupFirstAux_cons] at h
    by_cases hseen : (seen.any fun q => e q p) = true
    · rw [if_pos hseen] at h
      obtain ⟨h1, h2⟩ := ih h
      exact ⟨List.mem_cons_of_mem _ h1, h2⟩
    · rw [if_neg hseen] at h
      rcases List.mem_cons.mp h with rfl | h
      · exact ⟨List.mem_cons_self _ _, Bool.eq_false_iff.mpr hseen⟩
      · obtain ⟨h1, h2⟩ := ih h
        rw [List.any_cons] at h2
        exact ⟨List.mem_cons_of_mem _ h1, (Bool.or_eq_false_iff.mp h2).2⟩

lemma dedupFirstAux_pairwise {α : Type} (e : α → α → Bool) :
    ∀ (l seen : List α), (dedupFirstAux e l seen).Pairwise fun a b => e a b = false := by
  intro l
  induction l with
  | nil => intro seen; exact List.Pairwise.nil
  | cons p rest ih =>
    intro seen
    rw [dedupFirstAux_cons]
    split
    · exact ih seen
    · rw [List.pairwise_cons]
      refine ⟨fun x hx => ?_, ih (p :: seen)⟩
      have h2 := (mem_dedupFirstAux hx).2
      rw [List.any_cons] at h2
      exact (Bool.or_eq_false_iff.mp h2).1

lemma dedupFirstAux_eq_filter {α : Type} [DecidableEq α] {e : α → α → Bool}
    (hrefl : ∀ a, e a a = true)
    (htrans : ∀ a b c, e a b = true → e b c = true → e a c = true) :
    ∀ (l seen : List α), l.Nodup →
      dedupFirstAux e l seen =
        l.filter fun x => !(seen.any fun q => e q x) && firstOccB e l x := by
  intro l
  induction l with
  | nil =>
    intro seen _
    rfl
  | cons p rest ih =>
    intro seen hnd
    rw [List.nodup_cons] at hnd
    obtain ⟨hp, hndr⟩ := hnd
    by_cases hseen : (seen.any fun q => e q p) = true
    · rw [dedupFirstAux_cons, if_pos hseen, ih seen hndr, List.filter_cons]
      have hpredp : (!(seen.any fun q => e q p) && firstOccB e (p :: rest) p) = false := by
        simp [hseen]
      rw [hpredp, if_neg (by simp)]
      apply List.filter_congr
      intro x hx
      by_cases hpx : e p x = true
      · have hseenx : (seen.any fun q => e q x) = true := by
          rw [List.any_eq_true] at hseen ⊢
          obtain ⟨q, hq, hqp⟩ := hseen
          exact ⟨q, hq, htrans q p x hqp hpx⟩
        have hpnex : ¬ (p = x) := fun h => hp (h ▸ hx)
        have hfo : firstOccB e (p :: rest) x = false := by
          unfold firstOccB
          rw [List.find?_cons]
          simp [hpx, hpnex]
        simp [hseenx, hfo]
      · have hfo : firstOccB e (p :: rest) x = firstOccB e rest x := by
          unfold firstOccB
          rw [List.find?_cons]
          simp [Bool.eq_false_iff.mpr hpx]
        rw [hfo]
    · rw [dedupFirstAux_cons, if_neg hseen, ih (p :: seen) hndr, List.filter_cons]
      have hfop : firstOccB e (p :: rest) p = true := by
        unfold firstOccB
        rw [List.find?_cons]
        simp [hrefl p]
      have hpredp : (!(seen.any fun q => e q p) && firstOccB e (p :: rest) p) = true := by
        rw [Bool.not_eq_true] at hseen
        simp [hseen, hfop]
      rw [hpredp, if_pos rfl]
      congr 1
      apply List.filter_congr
      intro x hx
      by_cases hpx : e p x = true
      · have h1 : ((p :: seen).any fun q => e q x) = true := by
          rw [List.any_cons, hpx, Bool.true_or]
        have hpnex : ¬ (p = x) := fun h => hp (h ▸ hx)
        have hfo : firstOccB e (p :: rest) x = false := by
          unfold firstOccB
          rw [List.find?_cons]
          simp [hpx, hpnex]
        simp [h1, hfo]
      · have h1 : ((p :: seen).any fun q => e q x) = (seen.any fun q => e q x) := by
          rw [List.any_cons, (by simpa using hpx : e p x = false), Bool.false_or]
        have hfo : firstOccB e (p :: rest) x = firstOccB e rest x := by
          unfold firstOccB
          rw [List.find?_cons_of_neg _ (by simpa using hpx)]
        rw [h1, hfo]

lemma dedupFirst_eq_filter {α : Type} [DecidableEq α] {e : α → α → Bool}
    (hrefl : ∀ a, e a a = true)
    (htrans : ∀ a b c, e a b = true → e b c = true → e a c = true)
    (l : List α) (hnd : l.Nodup) :
    dedupFirst e l = l.filter (firstOccB e l) := by
  unfold dedupFirst
  rw [dedupFirstAux_eq_filter hrefl htrans l [] hnd]
  apply List.filter_congr
  intro x _
  simp

lemma find?_first_self {α : Type} {e : α → α → Bool}
    (htrans : ∀ a b c, e a b = true → e b c = true → e a c = true)
    (hrefl : ∀ a, e a a = true) :
    ∀ (l : List α) (p q : α), l.find? (fun r => e r p) = some q →
      l.find? (fun r => e r q) = some q := by
  intro l
  induction l with
  | nil =>
    intro p q h
    simp at h
  | cons a rest ih =>
    intro p q h
    by_cases hap : e a p = true
    · rw [List.find?_cons] at h
      simp only [hap] at h
      injection h with h
      subst h
      rw [List.find?_cons]
      simp [hrefl]
    · rw [List.find?_cons] at h
      simp only [Bool.eq_false_iff.mpr hap] at h
      have hqp : e q p = true := by
        have hx := List.find?_some h
        simpa using hx
      have haq : e a q = false := by
        rw [Bool.eq_false_iff]
        exact fun haq => hap (htrans a q p haq hqp)
      rw [List.find?_cons]
      simp only [haq]
      exact ih p q h

lemma dedupFirst_covers {α : Type} [DecidableEq α] {e : α → α → Bool}
    (hrefl : ∀ a, e a a = true)
    (htrans : ∀ a b c, e a b = true → e b c = true → e a c = true)
    (l : List α) (hnd : l.Nodup) (p : α) (hp : p ∈ l) :
    ∃ q ∈ dedupFirst e l, e q p = true := by
  obtain ⟨q, hq⟩ : ∃ q, l.find? (fun r => e r p) = some q := by
    cases hfind : l.find? (fun r => e r p) with
    | some q => exact ⟨q, rfl⟩
    | none =>
      rw [List.find?_eq_none] at hfind
      exact absurd (hrefl p) (by simpa using hfind p hp)
  refine ⟨q, ?_, by simpa using List.find?_some hq⟩
  rw [dedupFirst_eq_filter hrefl htrans l hnd, List.mem_filter]
  refine ⟨List.mem_of_find?_eq_some hq, ?_⟩
  unfold firstOccB
  rw [find?_first_self htrans hrefl l p q hq]
  simp

/-! ### The equivalence used by distinct stages -/

lemma ltPair_false_eq (s : Sorter) (i j : IndexPair) :
    s.ltPair i j false = decide (compareColumns s.table s.columns i j = .lt) := by
  rw [ltPair_def]
  cases compareColumns s.table s.columns i j <;> simp

lemma eqvB_eq_true_iff (s : Sorter) (i j : IndexPair) :
    eqvB s i j = true ↔ compareColumns s.table s.columns i j = .eq := by
  unfold eqvB
  rw [ltPair_false_eq, ltPair_false_eq, compareColumns_swap s.table s.columns i j]
  cases compareColumns s.table s.columns i j <;> simp [Ordering.swap]

lemma eqvB_refl (s : Sorter) (i : IndexPair) : eqvB s i i = true := by
  rw [eqvB_eq_true_iff, compareColumns_eq_iff]
  intro c _
  rfl

lemma eqvB_trans {s : Sorter} {i j k : IndexPair}
    (h1 : eqvB s i j = true) (h2 : eqvB s j k = true) : eqvB s i k = true := by
  rw [eqvB_eq_true_iff] at h1 h2 ⊢
  exact compareColumns_eq_trans h1 h2

lemma mkIndexPairs_nodup (view : List Nat) : (mkIndexPairs view).Nodup := by
  refine (mkIndexPairs_pairwise_idx view).imp fun h => ?_
  intro heq
  rw [heq] at h
  exact absurd h (Nat.lt_irrefl _)

/-- Claim C2: executing a valid distinct stage with the comparator in
equivalence mode keeps exactly the first-encountered entry of each
equivalence class, in first-occurrence order (the result is the
first-occurrence filter of the input, hence a sublist); its length is the
number of distinct equivalence classes; no two survivors are equivalent;
and every input entry is equivalent to some survivor. -/
theorem distinct_execute_first_occurrences (d : CommonDescriptor) (t : Table)
    (view : List Nat) (hv : d.is_valid = true) :
    d.execute (d.sorter t view) (mkIndexPairs view) =
      (mkIndexPairs view).filter
        (firstOccB (eqvB (d.sorter t view)) (mkIndexPairs view)) ∧
    (d.execute (d.sorter t view) (mkIndexPairs view)).length =
      numEquivClasses (eqvB (d.sorter t view)) (mkIndexPairs view) ∧
    (d.execute (d.sorter t view) (mkIndexPairs view)).Pairwise
      (fun a b => eqvB (d.sorter t view) a b = false) ∧
    (d.execute (d.sorter t view) (mkIndexPairs view)).Sublist (mkIndexPairs view) ∧
    ∀ p ∈ mkIndexPairs view, ∃ q ∈ d.execute (d.sorter t view) (mkIndexPairs view),
      eqvB (d.sorter t view) q p = true := by
  have hex : d.execute (d.sorter t view) (mkIndexPairs view) =
      dedupFirst (eqvB (d.sorter t view)) (mkIndexPairs view) := by
    simp [CommonDescriptor.execute, hv]
  have hchar := dedupFirst_eq_filter (eqvB_refl (d.sorter t view))
    (fun a b c h1 h2 => eqvB_trans h1 h2) (mkIndexPairs view) (mkIndexPairs_nodup view)
  refine ⟨hex.trans hchar, ?_, ?_, ?_, ?_⟩
  · rw [hex, hchar]
    rfl
  · rw [hex]
    exact dedupFirstAux_pairwise _ _ _
  · rw [hex, hchar]
    exact List.filter_sublist _
  · intro p hp
    rw [hex]
    exact dedupFirst_covers (eqvB_refl (d.sorter t view))
      (fun a b c h1 h2 => eqvB_trans h1 h2) (mkIndexPairs view) (mkIndexPairs_nodup view) p hp

theorem distinct_execute_first_occurrences_witness :
    (CommonDescriptor.ofColumns [[10]]).is_valid = true ∧
    (CommonDescriptor.ofColumns [[10]]).execute
        ((CommonDescriptor.ofColumns [[10]]).sorter tableW [1, 2, 3])
        (mkIndexPairs [1, 2, 3]) =
      (mkIndexPairs [1, 2, 3]).filter
        (firstOccB (eqvB ((CommonDescriptor.ofColumns [[10]]).sorter tableW [1, 2, 3]))
          (mkIndexPairs [1, 2, 3])) :=
  ⟨by decide,
    (distinct_execute_first_occurrences (CommonDescriptor.ofColumns [[10]]) tableW [1, 2, 3]
      (by decide)).1⟩

/-! ### Null policy (C3) -/

lemma getD_map_of_getElem? {α β : Type} (f : α → β) {l : List α} {i : Nat} {a : α}
    (h : l[i]? = some a) (dflt : β) : (l.map f).getD i dflt = f a := by
  rw [List.getD_eq_getElem?_getD, List.getElem?_map, h]
  rfl

/-- Effective value of a column chain at a row key: follow the link hops,
then fetch the stored value of the final column at the reached row; `none`
both for a broken link and for a stored null. -/
def chainValue (t : Table) (chain : List Nat) (k : Nat) : Option Int :=
  match resolveLinks t k chain.dropLast with
  | none => none
  | some k2 => t.getValue k2 (chain.getLastD 0)

lemma mkSortColumn_short (t : Table) (view : List Nat) (chain : List Nat) (asc : Bool)
    (h : chain.length ≤ 1) :
    mkSortColumn t view chain asc = ⟨[], [], chain.getLastD 0, asc⟩ := by
  unfold mkSortColumn
  rw [if_pos h]

lemma mkSortColumn_long (t : Table) (view : List Nat) (chain : List Nat) (asc : Bool)
    (h : ¬ chain.length ≤ 1) :
    mkSortColumn t view chain asc =
      ⟨view.map fun q => (resolveLinks t q chain.dropLast).isNone,
        view.map fun q => (resolveLinks t q chain.dropLast).getD 0,
        chain.getLastD 0, asc⟩ := by
  unfold mkSortColumn
  rw [if_neg h]

lemma valueAt_mk (t : Table) (nl : List Bool) (tk : List Nat) (ck : Nat) (a : Bool)
    (p : IndexPair) :
    SortColumn.valueAt ⟨nl, tk, ck, a⟩ t p =
      if tk.isEmpty then t.getValue p.key ck
      else if nl.getD p.idx true then none
      else t.getValue (tk.getD p.idx 0) ck := rfl

/-- The per-pass side arrays of `mkSortColumn` agree with `chainValue` on
every entry whose position in the view carries its row key. -/
lemma valueAt_mkSortColumn (t : Table) (view : List Nat) (chain : List Nat) (asc : Bool)
    {k idx : Nat} (hk : view[idx]? = some k) :
    (mkSortColumn t view chain asc).valueAt t ⟨k, idx⟩ = chainValue t chain k := by
  by_cases hlen : chain.length ≤ 1
  · rw [mkSortColumn_short t view chain asc hlen, valueAt_mk]
    have hdrop : chain.dropLast = [] := by
      cases chain with
      | nil => rfl
      | cons c0 rest =>
        cases rest with
        | nil => rfl
        | cons c1 r2 => simp at hlen
    simp [chainValue, hdrop, resolveLinks]
  · rw [mkSortColumn_long t view chain asc hlen, valueAt_mk]
    have hvne : view ≠ [] := by
      intro hempty
      rw [hempty] at hk
      simp at hk
    have hne : ((view.map fun q => (resolveLinks t q chain.dropLast).getD 0).isEmpty)
        = false := by
      rw [Bool.eq_false_iff]
      intro habs
      exact hvne (List.map_eq_nil_iff.mp (List.isEmpty_iff.mp habs))
    simp only [hne, Bool.false_eq_true, if_false,
      getD_map_of_getElem? (fun q => (resolveLinks t q chain.dropLast).isNone) hk true,
      getD_map_of_getElem? (fun q => (resolveLinks t q chain.dropLast).getD 0) hk 0]
    cases hres : resolveLinks t k chain.dropLast with
    | none => simp [chainValue, hres]
    | some k2 => simp [chainValue, hres]

/-- Claim C3: for every column, a null value — whether a stored null or a
broken-link resolved null — compares strictly less than any non-null value
independent of the ascending flag (the flag is inside the column, which is
universally quantified); two nulls compare equal and the lexicographic
comparison proceeds to the next column.  The last three conjuncts tie the
null value to its two sources: a broken link along the chain, a stored
null in a direct column, and a stored null at a resolved link target. -/
theorem sorter_null_policy (t : Table) :
    (∀ (c : SortColumn) (i j : IndexPair) (x : Int), c.valueAt t i = none →
        c.valueAt t j = some x →
        compareCol t c i j = .lt ∧ compareCol t c j i = .gt) ∧
    (∀ (c : SortColumn) (rest : List SortColumn) (i j : IndexPair),
        c.valueAt t i = none → c.valueAt t j = none →
        compareCol t c i j = .eq ∧
          compareColumns t (c :: rest) i j = compareColumns t rest i j) ∧
    (∀ (view chain : List Nat) (asc : Bool) (k idx : Nat),
        view[idx]? = some k → 1 < chain.length →
        resolveLinks t k chain.dropLast = none →
        (mkSortColumn t view chain asc).valueAt t ⟨k, idx⟩ = none) ∧
    (∀ (view : List Nat) (c0 : Nat) (asc : Bool) (k idx : Nat),
        t.getValue k c0 = none →
        (mkSortColumn t view [c0] asc).valueAt t ⟨k, idx⟩ = none) ∧
    (∀ (view chain : List Nat) (asc : Bool) (k k2 idx : Nat),
        view[idx]? = some k → 1 < chain.length →
        resolveLinks t k chain.dropLast = some k2 →
        t.getValue k2 (chain.getLastD 0) = none →
        (mkSortColumn t view chain asc).valueAt t ⟨k, idx⟩ = none) := by
  refine ⟨?_, ?_, ?_, ?_, ?_⟩
  · intro c i j x hi hj
    unfold compareCol
    rw [hi, hj]
    exact ⟨rfl, rfl⟩
  · intro c rest i j hi hj
    have hc : compareCol t c i j = .eq := by
      unfold compareCol
      rw [hi, hj]
      rfl
    refine ⟨hc, ?_⟩
    rw [compareColumns_cons, hc]
    rfl
  · intro view chain asc k idx hk hlen hbroken
    rw [valueAt_mkSortColumn t view chain asc hk]
    unfold chainValue
    rw [hbroken]
  · intro view c0 asc k idx hnull
    rw [mkSortColumn_short t view [c0] asc (by simp), valueAt_mk]
    simpa using hnull
  · intro view chain asc k k2 idx hk hlen hres hnull
    rw [valueAt_mkSortColumn t view chain asc hk]
    unfold chainValue
    rw [hres]
    exact hnull

theorem sorter_null_policy_witness :
    compareCol tableW ⟨[], [], 12, true⟩ ⟨1, 0⟩ ⟨2, 1⟩ = .lt ∧
    (mkSortColumn tableW [5, 1] [20, 10] true).valueAt tableW ⟨1, 1⟩ = none :=
  ⟨((sorter_null_policy tableW).1 ⟨[], [], 12, true⟩ ⟨1, 0⟩ ⟨2, 1⟩ 7 (by decide)
      (by decide)).1,
    (sorter_null_policy tableW).2.2.1 [5, 1] [20, 10] true 1 1 (by decide) (by decide)
      (by decide)⟩

/-! ### Tie break and comparison modes (C4) -/

lemma ltPair_irrefl (s : Sorter) (a : IndexPair) (total : Bool) :
    s.ltPair a a total = false := by
  rw [ltPair_def, (compareColumns_eq_iff _ _ _ _).mpr (fun c _ => rfl)]
  simp

lemma eqvB_symm (s : Sorter) (a b : IndexPair) : eqvB s a b = eqvB s b a := by
  unfold eqvB
  exact Bool.and_comm _ _

/-- Claim C4: when every column compares equal between two entries, the
total-ordering comparator breaks the tie by the entries' fixed positions
in the view and the non-total comparator reports the entries equal; in
total-ordering mode the relation is a strict order (irreflexive,
asymmetric, transitive, and total on entries at distinct positions), and
in equivalence mode the derived relation is an equivalence. -/
theorem comparator_tie_break (s : Sorter) (i j : IndexPair)
    (heq : compareColumns s.table s.columns i j = .eq) :
    s.ltPair i j true = decide (i.idx < j.idx) ∧
    s.ltPair i j false = false ∧
    s.ltPair j i false = false ∧
    eqvB s i j = true ∧
    (∀ a : IndexPair, s.ltPair a a true = false) ∧
    (∀ a b : IndexPair, s.ltPair a b true = true → s.ltPair b a true = false) ∧
    (∀ a b c : IndexPair, s.ltPair a b true = true → s.ltPair b c true = true →
      s.ltPair a c true = true) ∧
    (∀ a b : IndexPair, a.idx ≠ b.idx →
      s.ltPair a b true = true ∨ s.ltPair b a true = true) ∧
    (∀ a : IndexPair, eqvB s a a = true) ∧
    (∀ a b : IndexPair, eqvB s a b = eqvB s b a) ∧
    (∀ a b c : IndexPair, eqvB s a b = true → eqvB s b c = true →
      eqvB s a c = true) := by
  refine ⟨?_, ?_, ?_, (eqvB_eq_true_iff s i j).mpr heq, fun a => ltPair_irrefl s a true,
    fun a b h => ltPair_asymm h, fun a b c h1 h2 => ltPair_trans h1 h2, ?_,
    eqvB_refl s, eqvB_symm s, fun a b c h1 h2 => eqvB_trans h1 h2⟩
  · rw [ltPair_def, heq]
    simp
  · rw [ltPair_false_eq, heq]
    simp
  · rw [ltPair_false_eq, compareColumns_eq_symm heq]
    simp
  · intro a b hab
    rcases hc : compareColumns s.table s.columns a b with _ | _ | _
    · exact Or.inl ((ltPair_eq_true_iff s a b true).mpr (Or.inl hc))
    · rcases Nat.lt_or_ge a.idx b.idx with h | h
      · exact Or.inl ((ltPair_eq_true_iff s a b true).mpr (Or.inr ⟨hc, rfl, h⟩))
      · exact Or.inr ((ltPair_eq_true_iff s b a true).mpr
          (Or.inr ⟨compareColumns_eq_symm hc, rfl, by omega⟩))
    · exact Or.inr ((ltPair_eq_true_iff s b a true).mpr
        (Or.inl ((compareColumns_gt_iff s.table s.columns a b).mp hc)))

theorem comparator_tie_break_witness :
    ((SortDescriptor.ofColumns [[10]] []).sorter tableW [1, 3]).ltPair ⟨1, 0⟩ ⟨3, 1⟩ true =
      decide ((⟨1, 0⟩ : IndexPair).idx < (⟨3, 1⟩ : IndexPair).idx) :=
  (comparator_tie_break ((SortDescriptor.ofColumns [[10]] []).sorter tableW [1, 3])
    ⟨1, 0⟩ ⟨3, 1⟩ (by decide)).1

/-! ### Invalid descriptors are no-ops (C8) -/

/-- Claim C8: a descriptor built from an empty chain list, or from a list
containing an empty inner chain, reports `is_valid = false`, and executing
it (sort or distinct) returns the row-in-view entries unchanged. -/
theorem invalid_descriptor_noop (chains : List (List Nat)) (asc : List Bool)
    (s : Sorter) (v : List IndexPair)
    (h : chains = [] ∨ ∃ ch ∈ chains, ch = []) :
    (CommonDescriptor.ofColumns chains).is_valid = false ∧
    (SortDescriptor.ofColumns chains asc).is_valid = false ∧
    (CommonDescriptor.ofColumns chains).execute s v = v ∧
    (SortDescriptor.ofColumns chains asc).execute s v = v := by
  have hcond : (chains.isEmpty || chains.any List.isEmpty) = true := by
    rcases h with rfl | ⟨ch, hch, rfl⟩
    · rfl
    · refine Bool.or_eq_true _ _ |>.mpr (Or.inr ?_)
      rw [List.any_eq_true]
      exact ⟨[], hch, rfl⟩
  have h1 : CommonDescriptor.ofColumns chains = ⟨[]⟩ := by
    unfold CommonDescriptor.ofColumns
    rw [if_pos hcond]
  have h2 : SortDescriptor.ofColumns chains asc = ⟨[], []⟩ := by
    unfold SortDescriptor.ofColumns
    rw [if_pos hcond]
  rw [h1, h2]
  exact ⟨rfl, rfl, rfl, rfl⟩

theorem invalid_descriptor_noop_witness :
    (CommonDescriptor.ofColumns [[10], []]).is_valid = false ∧
    (CommonDescriptor.ofColumns [[10], []]).execute (Sorter.mk tableW []) [⟨1, 0⟩] =
      [⟨1, 0⟩] :=
  ⟨(invalid_descriptor_noop [[10], []] [] (Sorter.mk tableW []) [⟨1, 0⟩]
      (Or.inr ⟨[], by simp, rfl⟩)).1,
    (invalid_descriptor_noop [[10], []] [] (Sorter.mk tableW []) [⟨1, 0⟩]
      (Or.inr ⟨[], by simp, rfl⟩)).2.2.1⟩

/-! ### any_is_null (C9) -/

lemma zip_self_map {α β : Type} (f : α → β) :
    ∀ l : List α, l.zip (l.map f) = l.map fun a => (a, f a) := by
  intro l
  induction l with
  | nil => rfl
  | cons a rest ih => simp [ih]

lemma sorter_columns_distinct (d : CommonDescriptor) (t : Table) (view : List Nat) :
    (d.sorter t view).columns = d.m_column_ids.map fun ch => mkSortColumn t view ch true := by
  unfold CommonDescriptor.sorter mkSorter
  rw [zip_self_map (fun _ => true) d.m_column_ids, List.map_map]
  rfl

lemma any_is_null_chain_iff (t : Table) (view : List Nat) (ch : List Nat)
    {k idx : Nat} (hk : view[idx]? = some k) :
    ((if (mkSortColumn t view ch true).is_null.isEmpty then false
      else (mkSortColumn t view ch true).is_null.getD idx false) = true) ↔
      (1 < ch.length ∧ resolveLinks t k ch.dropLast = none) := by
  by_cases hlen : ch.length ≤ 1
  · rw [mkSortColumn_short t view ch true hlen]
    simp only [List.isEmpty_nil, if_true]
    constructor
    · intro h
      exact absurd h (by simp)
    · intro h
      omega
  · rw [mkSortColumn_long t view ch true hlen]
    have hvne : view ≠ [] := by
      intro hempty
      rw [hempty] at hk
      simp at hk
    have hem : ((view.map fun q => (resolveLinks t q ch.dropLast).isNone).isEmpty)
        = false := by
      rw [Bool.eq_false_iff]
      intro habs
      exact hvne (List.map_eq_nil_iff.mp (List.isEmpty_iff.mp habs))
    simp only [hem, Bool.false_eq_true, if_false,
      getD_map_of_getElem? (fun q => (resolveLinks t q ch.dropLast).isNone) hk false,
      Option.isNone_iff_eq_none]
    constructor
    · intro h
      exact ⟨by omega, h⟩
    · intro h
      exact h.2

/-- Claim C9 (amended): `Sorter::any_is_null` answers `true` for a row
exactly when some column chain of the sorter traverses links (length
greater than one) and the link walk from that row breaks; a stored null in
the final column does not count, since only link chains populate the
per-column `is_null` arrays. -/
theorem any_is_null_iff_broken_link (d : CommonDescriptor) (t : Table) (view : List Nat)
    (k idx : Nat) (hk : view[idx]? = some k) :
    ((d.sorter t view).any_is_null ⟨k, idx⟩ = true) ↔
      ∃ ch ∈ d.m_column_ids, 1 < ch.length ∧ resolveLinks t k ch.dropLast = none := by
  unfold Sorter.any_is_null
  rw [sorter_columns_distinct, List.any_eq_true]
  constructor
  · rintro ⟨c, hc, hpred⟩
    obtain ⟨ch, hch, rfl⟩ := List.mem_map.mp hc
    exact ⟨ch, hch, (any_is_null_chain_iff t view ch hk).mp hpred⟩
  · rintro ⟨ch, hch, hpred⟩
    exact ⟨mkSortColumn t view ch true, List.mem_map_of_mem _ hch,
      (any_is_null_chain_iff t view ch hk).mpr hpred⟩

theorem any_is_null_iff_broken_link_witness :
    ((CommonDescriptor.ofColumns [[20, 10]]).sorter tableW [5, 1]).any_is_null ⟨1, 1⟩
      = true :=
  (any_is_null_iff_broken_link (CommonDescriptor.ofColumns [[20, 10]]) tableW [5, 1] 1 1
    (by decide)).mpr ⟨[20, 10], by decide, by decide, by decide⟩

/-- Counterexample to claim C9 as stated: on a single direct column whose
stored value is null for the row, the column is null for ordering purposes
(`valueAt` is `none` for the sorter's one column) yet `any_is_null`
answers `false`. -/
theorem any_is_null_stored_null_counterexample :
    ((CommonDescriptor.ofColumns [[12]]).sorter tableW [1]).any_is_null ⟨1, 0⟩ = false ∧
    ((CommonDescriptor.ofColumns [[12]]).sorter tableW [1]).columns.all
      (fun c => (c.valueAt tableW ⟨1, 0⟩).isNone) = true ∧
    ((CommonDescriptor.ofColumns [[12]]).sorter tableW [1]).columns ≠ [] :=
  ⟨by decide, by decide, by decide⟩

/-! ### Default-constructed descriptors (C10) -/

/-- Claim C10: default-constructed descriptors have an empty column-id
list and are invalid, so appending them via `append_sort` or
`append_distinct` leaves the descriptor stack unchanged. -/
theorem default_descriptor_append_noop (o : DescriptorOrdering) :
    CommonDescriptor.defaultCtor.m_column_ids = [] ∧
    SortDescriptor.defaultCtor.m_column_ids = [] ∧
    CommonDescriptor.defaultCtor.is_valid = false ∧
    SortDescriptor.defaultCtor.is_valid = false ∧
    o.append_sort SortDescriptor.defaultCtor = o ∧
    o.append_distinct CommonDescriptor.defaultCtor = o := by
  refine ⟨rfl, rfl, rfl, rfl, ?_, ?_⟩
  · unfold DescriptorOrdering.append_sort
    rw [if_neg (fun habs => Bool.noConfusion habs)]
  · unfold DescriptorOrdering.append_distinct
    rw [if_neg (fun habs => Bool.noConfusion habs)]

/-! ### append_sort folding (C6) -/

/-- Claim C6: `append_sort` ignores an invalid stage; when the last stage
of the stack is a plain sort stage the new stage is folded into it via
`merge_with` and the stack size is unchanged; otherwise the stage is
appended and the size grows by one. -/
theorem append_sort_fold_or_append (o : DescriptorOrdering) (d : SortDescriptor) :
    (d.is_valid = false → o.append_sort d = o) ∧
    (d.is_valid = true → ∀ pre last, o.m_descriptors = pre ++ [Stage.sortStage last] →
      o.append_sort d = ⟨pre ++ [Stage.sortStage (last.merge_with d)]⟩ ∧
      (o.append_sort d).m_descriptors.length = o.m_descriptors.length) ∧
    (d.is_valid = true →
      (∀ last, o.m_descriptors.getLast? ≠ some (Stage.sortStage last)) →
      o.append_sort d = ⟨o.m_descriptors ++ [Stage.sortStage d]⟩ ∧
      (o.append_sort d).m_descriptors.length = o.m_descriptors.length + 1) := by
  refine ⟨?_, ?_, ?_⟩
  · intro hval
    unfold DescriptorOrdering.append_sort
    rw [if_neg (fun habs => by rw [hval] at habs; exact Bool.noConfusion habs)]
  · intro hval pre last hpre
    have hlast : o.m_descriptors.getLast? = some (Stage.sortStage last) := by
      rw [hpre, List.getLast?_concat]
    have hmain : o.append_sort d = ⟨pre ++ [Stage.sortStage (last.merge_with d)]⟩ := by
      unfold DescriptorOrdering.append_sort
      rw [if_pos hval, hlast, hpre, List.dropLast_concat]
    refine ⟨hmain, ?_⟩
    rw [hmain, hpre]
    simp
  · intro hval hnot
    have hmain : o.append_sort d = ⟨o.m_descriptors ++ [Stage.sortStage d]⟩ := by
      unfold DescriptorOrdering.append_sort
      rw [if_pos hval]
      cases hlast : o.m_descriptors.getLast? with
      | none => rfl
      | some st =>
        cases st with
        | sortStage sd => exact absurd hlast (hnot sd)
        | distinctStage dd => rfl
    refine ⟨hmain, ?_⟩
    rw [hmain]
    simp

theorem append_sort_fold_or_append_witness :
    DescriptorOrdering.append_sort
        ⟨[Stage.sortStage (SortDescriptor.ofColumns [[10]] [true])]⟩
        (SortDescriptor.ofColumns [[11]] [false]) =
      ⟨[Stage.sortStage ((SortDescriptor.ofColumns [[10]] [true]).merge_with
          (SortDescriptor.ofColumns [[11]] [false]))]⟩ :=
  ((append_sort_fold_or_append
      ⟨[Stage.sortStage (SortDescriptor.ofColumns [[10]] [true])]⟩
      (SortDescriptor.ofColumns [[11]] [false])).2.1 (by decide) []
      (SortDescriptor.ofColumns [[10]] [true]) rfl).1

/-! ### Handover patch round-trip (C7) -/

lemma resolveStagePatch_roundtrip (t : Table) (st : Stage)
    (h : st.wellFormedOn t = true) : resolveStagePatch t st.toPatch = .ok st := by
  cases st with
  | sortStage d =>
    simp only [Stage.wellFormedOn, SortDescriptor.wellFormedOn, Bool.and_eq_true,
      beq_iff_eq] at h
    obtain ⟨⟨h1, h2⟩, h3⟩ := h
    have hcols : (d.m_column_ids.all fun ch => ch.all t.hasColumn) = true := by
      rw [List.all_eq_true] at h2 ⊢
      intro ch hch
      exact ((Bool.and_eq_true _ _).mp (h2 ch hch)).2
    have hofc : SortDescriptor.ofColumns d.m_column_ids d.m_ascending = d := by
      unfold SortDescriptor.ofColumns
      have hcond : (d.m_column_ids.isEmpty || d.m_column_ids.any List.isEmpty) = false := by
        rw [Bool.or_eq_false_iff]
        refine ⟨by simpa using h1, ?_⟩
        rw [Bool.eq_false_iff]
        intro habs
        rw [List.any_eq_true] at habs
        obtain ⟨ch, hch, hchE⟩ := habs
        have := ((Bool.and_eq_true _ _).mp ((List.all_eq_true.mp h2) ch hch)).1
        rw [hchE] at this
        exact Bool.noConfusion this
      rw [if_neg (fun habs => by rw [hcond] at habs; exact Bool.noConfusion habs)]
      have hascne : d.m_ascending.isEmpty = false := by
        rw [Bool.eq_false_iff]
        intro habs
        rw [List.isEmpty_iff] at habs
        rw [habs] at h3
        simp only [List.length_nil] at h3
        have h1' : d.m_column_ids ≠ [] := by simpa using h1
        exact h1' (List.length_eq_zero.mp h3.symm)
      rw [if_neg (fun habs => by rw [hascne] at habs; exact Bool.noConfusion habs)]
    unfold Stage.toPatch resolveStagePatch
    rw [if_pos (by simpa using hcols), if_pos rfl, hofc]
  | distinctStage d =>
    simp only [Stage.wellFormedOn, CommonDescriptor.wellFormedOn, Bool.and_eq_true] at h
    obtain ⟨h1, h2⟩ := h
    have hcols : (d.m_column_ids.all fun ch => ch.all t.hasColumn) = true := by
      rw [List.all_eq_true] at h2 ⊢
      intro ch hch
      exact ((Bool.and_eq_true _ _).mp (h2 ch hch)).2
    have hofc : CommonDescriptor.ofColumns d.m_column_ids = d := by
      unfold CommonDescriptor.ofColumns
      have hcond : (d.m_column_ids.isEmpty || d.m_column_ids.any List.isEmpty) = false := by
        rw [Bool.or_eq_false_iff]
        refine ⟨by simpa using h1, ?_⟩
        rw [Bool.eq_false_iff]
        intro habs
        rw [List.any_eq_true] at habs
        obtain ⟨ch, hch, hchE⟩ := habs
        have := ((Bool.and_eq_true _ _).mp ((List.all_eq_true.mp h2) ch hch)).1
        rw [hchE] at this
        exact Bool.noConfusion this
      rw [if_neg (fun habs => by rw [hcond] at habs; exact Bool.noConfusion habs)]
    unfold Stage.toPatch resolveStagePatch
    rw [if_pos (by simpa using hcols)]
    have hfalse : (false = true) = False := by simp
    rw [if_neg (fun habs => Bool.noConfusion habs), hofc]

lemma mapM_resolveStagePatch (t : Table) :
    ∀ (stages : List Stage), (∀ st ∈ stages, st.wellFormedOn t = true) →
      (stages.map Stage.toPatch).mapM (resolveStagePatch t) = Except.ok stages := by
  intro stages
  induction stages with
  | nil =>
    intro _
    rfl
  | cons st rest ih =>
    intro h
    simp only [List.map_cons, List.mapM_cons]
    rw [resolveStagePatch_roundtrip t st (h st (List.mem_cons_self st rest)),
      ih fun s hs => h s (List.mem_cons_of_mem _ hs)]
    rfl

/-- Claim C7: consuming a patch generated from a stack, against a table on
which every recorded stage still resolves, reproduces the original stack —
so its description and its execution on every view coincide with the
original's — and leaves the consumed slot empty, so a second consumption
reports the already-consumed error instead of producing a stack. -/
theorem patch_roundtrip (o : DescriptorOrdering) (t : Table)
    (h : ∀ st ∈ o.m_descriptors, st.wellFormedOn t = true) :
    create_from_and_consume_patch (some (generate_patch o)) t = (Except.ok o, none) ∧
    (∀ o2, create_from_and_consume_patch (some (generate_patch o)) t =
        (Except.ok o2, none) →
      o2.get_description t = o.get_description t ∧
      ∀ view, o2.executeStack t view = o.executeStack t view) ∧
    create_from_and_consume_patch
        (create_from_and_consume_patch (some (generate_patch o)) t).2 t =
      (Except.error "patch already consumed", none) := by
  have hmain : createFromPatch t (generate_patch o) = .ok o := by
    unfold createFromPatch generate_patch
    rw [mapM_resolveStagePatch t o.m_descriptors h]
    rfl
  have hfst : create_from_and_consume_patch (some (generate_patch o)) t =
      (Except.ok o, none) := by
    show (createFromPatch t (generate_patch o), (none : Option HandoverPatch)) =
      (Except.ok o, none)
    rw [hmain]
  refine ⟨hfst, ?_, ?_⟩
  · intro o2 ho2
    rw [hfst] at ho2
    injection ho2 with ha hb
    injection ha with h2
    rw [← h2]
    exact ⟨rfl, fun view => rfl⟩
  · rw [hfst]
    rfl

theorem patch_roundtrip_witness :
    create_from_and_consume_patch
        (some (generate_patch ⟨[Stage.sortStage (SortDescriptor.ofColumns [[10]] [true]),
          Stage.distinctStage (CommonDescriptor.ofColumns [[11]])]⟩)) tableW =
      (Except.ok ⟨[Stage.sortStage (SortDescriptor.ofColumns [[10]] [true]),
        Stage.distinctStage (CommonDescriptor.ofColumns [[11]])]⟩, none) :=
  (patch_roundtrip ⟨[Stage.sortStage (SortDescriptor.ofColumns [[10]] [true]),
    Stage.distinctStage (CommonDescriptor.ofColumns [[11]])]⟩ tableW (by decide)).1

/-! ### Merging sort stages (C5): key-level comparison -/

/-- Lexicographic comparison of two row keys over (chain, ascending)
specifications, independent of any view. -/
def keyCmp (t : Table) : List (List Nat × Bool) → Nat → Nat → Ordering
  | [], _, _ => .eq
  | p :: rest, k1, k2 =>
    (compareVals p.2 (chainValue t p.1 k1) (chainValue t p.1 k2)).then (keyCmp t rest k1 k2)

/-- Comparison of two row keys by their positions in a base list. -/
def idxCmp (l : List Nat) (k1 k2 : Nat) : Ordering :=
  compare (l.indexOf k1) (l.indexOf k2)

/-- The strict total order realised by one sort pass over `base`: the keys
first, ties broken by position in `base`. -/
def passCmp (t : Table) (specs : List (List Nat × Bool)) (base : List Nat)
    (k1 k2 : Nat) : Ordering :=
  (keyCmp t specs k1 k2).then (idxCmp base k1 k2)

lemma then_assoc' (a b c : Ordering) : (a.then b).then c = a.then (b.then c) := by
  cases a <;> rfl

lemma keyCmp_swap (t : Table) (specs : List (List Nat × Bool)) (k1 k2 : Nat) :
    keyCmp t specs k2 k1 = (keyCmp t specs k1 k2).swap := by
  induction specs with
  | nil => rfl
  | cons p rest ih =>
    show (compareVals p.2 (chainValue t p.1 k2) (chainValue t p.1 k1)).then
        (keyCmp t rest k2 k1) =
      ((compareVals p.2 (chainValue t p.1 k1) (chainValue t p.1 k2)).then
        (keyCmp t rest k1 k2)).swap
    rw [compareVals_swap, ih, Ordering.swap_then]

lemma keyCmp_append (t : Table) (s1 s2 : List (List Nat × Bool)) (k1 k2 : Nat) :
    keyCmp t (s1 ++ s2) k1 k2 = (keyCmp t s1 k1 k2).then (keyCmp t s2 k1 k2) := by
  induction s1 with
  | nil => rfl
  | cons p rest ih =>
    show (compareVals p.2 (chainValue t p.1 k1) (chainValue t p.1 k2)).then
        (keyCmp t (rest ++ s2) k1 k2) =
      ((compareVals p.2 (chainValue t p.1 k1) (chainValue t p.1 k2)).then
        (keyCmp t rest k1 k2)).then (keyCmp t s2 k1 k2)
    rw [ih, then_assoc']

lemma idxCmp_swap (l : List Nat) (k1 k2 : Nat) : idxCmp l k2 k1 = (idxCmp l k1 k2).swap := by
  unfold idxCmp
  rcases Nat.lt_trichotomy (l.indexOf k1) (l.indexOf k2) with h | h | h
  · rw [Nat.compare_eq_gt.mpr h, Nat.compare_eq_lt.mpr h]
    rfl
  · rw [h]
    rw [Nat.compare_eq_eq.mpr rfl]
    rfl
  · rw [Nat.compare_eq_lt.mpr h, Nat.compare_eq_gt.mpr h]
    rfl

lemma passCmp_swap (t : Table) (specs : List (List Nat × Bool)) (base : List Nat)
    (k1 k2 : Nat) : passCmp t specs base k2 k1 = (passCmp t specs base k1 k2).swap := by
  unfold passCmp
  rw [keyCmp_swap, idxCmp_swap, Ordering.swap_then]

lemma passCmp_eq_imp {t : Table} {specs : List (List Nat × Bool)} {base : List Nat}
    {k1 k2 : Nat} (h1 : k1 ∈ base) (h2 : k2 ∈ base)
    (heq : passCmp t specs base k1 k2 = .eq) : k1 = k2 := by
  unfold passCmp at heq
  rw [Ordering.then_eq_eq] at heq
  have hidx := heq.2
  unfold idxCmp at hidx
  exact (List.indexOf_inj h1 h2).mp (Nat.compare_eq_eq.mp hidx)

lemma mkSortColumn_ascending (t : Table) (view : List Nat) (ch : List Nat) (a : Bool) :
    (mkSortColumn t view ch a).ascending = a := by
  unfold mkSortColumn
  split <;> rfl

lemma valueAt_mkSortColumn' (t : Table) (view : List Nat) (chain : List Nat) (asc : Bool)
    {p : IndexPair} (hk : view[p.idx]? = some p.key) :
    (mkSortColumn t view chain asc).valueAt t p = chainValue t chain p.key :=
  valueAt_mkSortColumn t view chain asc hk

lemma compareColumns_mkSorter (t : Table) (view : List Nat)
    (specs : List (List Nat × Bool)) {i j : IndexPair}
    (hi : view[i.idx]? = some i.key) (hj : view[j.idx]? = some j.key) :
    compareColumns t (specs.map fun p => mkSortColumn t view p.1 p.2) i j =
      keyCmp t specs i.key j.key := by
  induction specs with
  | nil => rfl
  | cons p rest ih =>
    rw [List.map_cons, compareColumns_cons, ih]
    show (compareCol t (mkSortColumn t view p.1 p.2) i j).then _ = _
    unfold compareCol
    rw [valueAt_mkSortColumn' t view p.1 p.2 hi, valueAt_mkSortColumn' t view p.1 p.2 hj,
      mkSortColumn_ascending]
    rfl

lemma indexOf_eq_of_getElem? {l : List Nat} {i k : Nat} (hnd : l.Nodup)
    (h : l[i]? = some k) : l.indexOf k = i := by
  induction l generalizing i with
  | nil => simp at h
  | cons a rest ih =>
    rw [List.nodup_cons] at hnd
    cases i with
    | zero =>
      rw [List.getElem?_cons_zero] at h
      injection h with h
      subst h
      exact List.indexOf_cons_self _ _
    | succ n =>
      rw [List.getElem?_cons_succ] at h
      have hmem : k ∈ rest := List.getElem?_mem h
      have hne : a ≠ k := fun he => hnd.1 (he ▸ hmem)
      rw [List.indexOf_cons_ne rest hne, ih hnd.2 h]

lemma ltPair_iff_passCmp (t : Table) (view : List Nat) (chains : List (List Nat))
    (asc : List Bool) {i j : IndexPair} (hnd : view.Nodup)
    (hi : view[i.idx]? = some i.key) (hj : view[j.idx]? = some j.key) :
    ((mkSorter t view chains asc).ltPair i j true = true ↔
      passCmp t (chains.zip asc) view i.key j.key = .lt) := by
  have hcols : (mkSorter t view chains asc).columns =
      ((chains.zip asc).map fun p => mkSortColumn t view p.1 p.2) := rfl
  have htab : (mkSorter t view chains asc).table = t := rfl
  rw [ltPair_eq_true_iff, htab, hcols, compareColumns_mkSorter t view (chains.zip asc) hi hj]
  unfold passCmp idxCmp
  rw [indexOf_eq_of_getElem? hnd hi, indexOf_eq_of_getElem? hnd hj]
  cases hc : keyCmp t (chains.zip asc) i.key j.key with
  | lt => simp [Ordering.then]
  | eq => simp [Ordering.then, Nat.compare_eq_lt]
  | gt => simp [Ordering.then]

lemma sortByDescriptor_perm (d : SortDescriptor) (t : Table) (view : List Nat) :
    (sortByDescriptor d t view).Perm view := by
  unfold sortByDescriptor SortDescriptor.execute
  split
  · have h := (insertionSort_perm (sortLe (d.sorter t view)) (mkIndexPairs view)).map
      IndexPair.key
    rwa [mkIndexPairs_map_key] at h
  · rw [mkIndexPairs_map_key]

lemma sortByDescriptor_pairwise (d : SortDescriptor) (t : Table) (view : List Nat)
    (hv : d.is_valid = true) (hnd : view.Nodup) :
    (sortByDescriptor d t view).Pairwise fun k1 k2 =>
      passCmp t (d.m_column_ids.zip d.m_ascending) view k1 k2 ≠ .gt := by
  unfold sortByDescriptor
  have hex : d.execute (d.sorter t view) (mkIndexPairs view) =
      insertionSort (sortLe (d.sorter t view)) (mkIndexPairs view) := by
    simp [SortDescriptor.execute, hv]
  rw [hex, List.pairwise_map]
  have hpw := insertionSort_pairwise (sortLe_total (d.sorter t view))
    (fun x y z h1 h2 => sortLe_trans h1 h2) (mkIndexPairs view)
  have hperm := insertionSort_perm (sortLe (d.sorter t view)) (mkIndexPairs view)
  refine hpw.imp_of_mem ?_
  intro a b ha hb hle
  have hmA : view[a.idx]? = some a.key := mkIndexPairs_mem (hperm.subset ha)
  have hmB : view[b.idx]? = some b.key := mkIndexPairs_mem (hperm.subset hb)
  have hlt : (d.sorter t view).ltPair b a true = false := by
    simpa [sortLe] using hle
  have hsd : d.sorter t view = mkSorter t view d.m_column_ids d.m_ascending := rfl
  rw [hsd] at hlt
  intro hgt
  have hswap : passCmp t (d.m_column_ids.zip d.m_ascending) view b.key a.key = .lt := by
    rw [passCmp_swap, hgt]
    rfl
  have hx := (ltPair_iff_passCmp t view d.m_column_ids d.m_ascending hnd hmB hmA).mpr hswap
  rw [hx] at hlt
  exact Bool.noConfusion hlt

lemma idxCmp_eq_of_sorted (l : List Nat) (C : Nat → Nat → Ordering)
    (hsort : l.Pairwise fun k1 k2 => C k1 k2 ≠ .gt)
    (hswap : ∀ k1 k2, C k2 k1 = (C k1 k2).swap)
    (heq : ∀ k1 k2, k1 ∈ l → k2 ∈ l → C k1 k2 = .eq → k1 = k2)
    {k1 k2 : Nat} (h1 : k1 ∈ l) (h2 : k2 ∈ l) :
    idxCmp l k1 k2 = C k1 k2 := by
  have hlt1 : l.indexOf k1 < l.length := List.indexOf_lt_length.mpr h1
  have hlt2 : l.indexOf k2 < l.length := List.indexOf_lt_length.mpr h2
  have e1 : l[l.indexOf k1] = k1 := List.getElem_indexOf hlt1
  have e2 : l[l.indexOf k2] = k2 := List.getElem_indexOf hlt2
  have hpg := List.pairwise_iff_getElem.mp hsort
  unfold idxCmp
  rcases Nat.lt_trichotomy (l.indexOf k1) (l.indexOf k2) with h | h | h
  · have hng : C k1 k2 ≠ .gt := by
      have hx := hpg _ _ hlt1 hlt2 h
      rwa [e1, e2] at hx
    have hK : k1 ≠ k2 := fun hkk => by
      rw [hkk] at h
      exact Nat.lt_irrefl _ h
    rw [Nat.compare_eq_lt.mpr h]
    rcases hc : C k1 k2 with _ | _ | _
    · rfl
    · exact absurd (heq k1 k2 h1 h2 hc) hK
    · exact absurd hc hng
  · have hk : k1 = k2 := (List.indexOf_inj h1 h2).mp h
    subst hk
    rw [h]
    rw [Nat.compare_eq_eq.mpr rfl]
    have hswap1 := hswap k1 k1
    rcases hc : C k1 k1 with _ | _ | _
    · rw [hc] at hswap1
      exact absurd hswap1 (by simp [Ordering.swap])
    · rfl
    · rw [hc] at hswap1
      exact absurd hswap1 (by simp [Ordering.swap])
  · have hng : C k2 k1 ≠ .gt := by
      have hx := hpg _ _ hlt2 hlt1 h
      rwa [e1, e2] at hx
    have hK : k1 ≠ k2 := fun hkk => by
      rw [hkk] at h
      exact Nat.lt_irrefl _ h
    rw [Nat.compare_eq_gt.mpr h]
    rcases hc : C k1 k2 with _ | _ | _
    · have hc2 : C k2 k1 = .gt := by
        rw [hswap k1 k2, hc]
        rfl
      exact absurd hc2 hng
    · exact absurd (heq k1 k2 h1 h2 hc) hK
    · rfl

lemma cons_append_eq_of_all_eq {α : Type} (a : α) :
    ∀ (u v : List α), (∀ x ∈ u, x = a) → a :: (u ++ v) = u ++ a :: v := by
  intro u
  induction u with
  | nil =>
    intro v _
    rfl
  | cons b u ih =>
    intro v hall
    have hb : b = a := hall b (List.mem_cons_self _ _)
    subst hb
    show b :: ((b :: u) ++ v) = (b :: u) ++ (b :: v)
    rw [List.cons_append, List.cons_append]
    rw [← ih v fun x hx => hall x (List.mem_cons_of_mem _ hx)]

lemma eq_of_perm_of_pairwise {α : Type} {R : α → α → Prop} :
    ∀ {l1 l2 : List α}, l1.Perm l2 → l1.Pairwise R → l2.Pairwise R →
      (∀ a b, a ∈ l1 → b ∈ l1 → R a b → R b a → a = b) → l1 = l2 := by
  intro l1
  induction l1 with
  | nil =>
    intro l2 hp _ _ _
    exact hp.nil_eq
  | cons a l1 ih =>
    intro l2 hp h1 h2 hanti
    have ha2 : a ∈ l2 := hp.subset (List.mem_cons_self a l1)
    obtain ⟨u2, v2, rfl⟩ := List.append_of_mem ha2
    have hp' : l1.Perm (u2 ++ v2) := (List.perm_cons a).mp (hp.trans List.perm_middle)
    rw [List.pairwise_cons] at h1
    obtain ⟨hhead, htail⟩ := h1
    have hall : ∀ x ∈ u2, x = a := by
      intro x hx
      have hx2 : x ∈ u2 ++ a :: v2 := List.mem_append_left _ hx
      have hx1 : x ∈ a :: l1 := hp.symm.subset hx2
      rcases List.mem_cons.mp hx1 with rfl | hx1
      · rfl
      · refine hanti x a (List.mem_cons_of_mem _ hx1) (List.mem_cons_self a l1) ?_ ?_
        · exact (List.pairwise_append.mp h2).2.2 x hx a (List.mem_cons_self a v2)
        · exact hhead x hx1
    have htail2 : (u2 ++ v2).Pairwise R := by
      have hsub : (u2 ++ v2).Sublist (u2 ++ a :: v2) := by
        refine List.Sublist.append (List.Sublist.refl u2) ?_
        exact List.sublist_cons_self a v2
      exact h2.sublist hsub
    have hrec := ih hp' htail htail2
      fun x y hx hy => hanti x y (List.mem_cons_of_mem _ hx) (List.mem_cons_of_mem _ hy)
    rw [hrec]
    exact cons_append_eq_of_all_eq a u2 v2 hall

/-- Counterexample to claim C5 as stated: with A sorting ascending on
column 10 and B descending on column 11, the merged stage orders view
`[1, 2]` as `[2, 1]`, while executing A first and then B on A's output
orders it `[1, 2]`. -/
theorem merge_with_counterexample :
    sortByDescriptor ((SortDescriptor.ofColumns [[10]] [true]).merge_with
        (SortDescriptor.ofColumns [[11]] [false])) tableW [1, 2] = [2, 1] ∧
    sortByDescriptor (SortDescriptor.ofColumns [[11]] [false]) tableW
        (sortByDescriptor (SortDescriptor.ofColumns [[10]] [true]) tableW [1, 2]) =
      [1, 2] :=
  ⟨by decide, by decide⟩

/-- Claim C5 (amended): executing the single stage `A.merge_with B` on a
duplicate-free view produces exactly the final order of the two
sequential stable passes applied least-significant key first — B on the
view, then A on B's output. -/
theorem merge_with_eq_sequential (A B : SortDescriptor) (t : Table) (view : List Nat)
    (hnd : view.Nodup) (hA : A.is_valid = true) (hB : B.is_valid = true)
    (hAw : A.m_ascending.length = A.m_column_ids.length) :
    sortByDescriptor (A.merge_with B) t view =
      sortByDescriptor A t (sortByDescriptor B t view) := by
  have hM : (A.merge_with B).m_column_ids.zip ((A.merge_with B).m_ascending) =
      A.m_column_ids.zip A.m_ascending ++ B.m_column_ids.zip B.m_ascending := by
    show (A.m_column_ids ++ B.m_column_ids).zip (A.m_ascending ++ B.m_ascending) = _
    rw [List.zip_append hAw.symm]
  have hMv : (A.merge_with B).is_valid = true := by
    have hcols : (A.merge_with B).m_column_ids = A.m_column_ids ++ B.m_column_ids := rfl
    unfold SortDescriptor.is_valid
    rw [hcols]
    cases hc : A.m_column_ids with
    | nil =>
      unfold SortDescriptor.is_valid at hA
      rw [hc] at hA
      exact Bool.noConfusion hA
    | cons c0 rest => rfl
  have hperm1 : (sortByDescriptor B t view).Perm view := sortByDescriptor_perm B t view
  have hnd1 : (sortByDescriptor B t view).Nodup := hperm1.nodup_iff.mpr hnd
  have hsortB := sortByDescriptor_pairwise B t view hB hnd
  have hCB : ∀ k1 k2, k1 ∈ sortByDescriptor B t view → k2 ∈ sortByDescriptor B t view →
      idxCmp (sortByDescriptor B t view) k1 k2 =
        passCmp t (B.m_column_ids.zip B.m_ascending) view k1 k2 := by
    intro k1 k2 h1 h2
    exact idxCmp_eq_of_sorted (sortByDescriptor B t view)
      (passCmp t (B.m_column_ids.zip B.m_ascending) view) hsortB
      (fun x y => passCmp_swap t _ view x y)
      (fun x y hx hy => passCmp_eq_imp (hperm1.subset hx) (hperm1.subset hy)) h1 h2
  have hsortM : (sortByDescriptor (A.merge_with B) t view).Pairwise
      fun k1 k2 => passCmp t
        (A.m_column_ids.zip A.m_ascending ++ B.m_column_ids.zip B.m_ascending)
        view k1 k2 ≠ .gt := by
    have h := sortByDescriptor_pairwise (A.merge_with B) t view hMv hnd
    rwa [hM] at h
  have hpermSeq : (sortByDescriptor A t (sortByDescriptor B t view)).Perm
      (sortByDescriptor B t view) := sortByDescriptor_perm A t _
  have hsortSeq : (sortByDescriptor A t (sortByDescriptor B t view)).Pairwise
      fun k1 k2 => passCmp t
        (A.m_column_ids.zip A.m_ascending ++ B.m_column_ids.zip B.m_ascending)
        view k1 k2 ≠ .gt := by
    have h := sortByDescriptor_pairwise A t (sortByDescriptor B t view) hA hnd1
    refine h.imp_of_mem ?_
    intro k1 k2 h1 h2 hne
    have m1 : k1 ∈ sortByDescriptor B t view := hpermSeq.subset h1
    have m2 : k2 ∈ sortByDescriptor B t view := hpermSeq.subset h2
    intro hgt
    apply hne
    have hrw : passCmp t (A.m_column_ids.zip A.m_ascending) (sortByDescriptor B t view)
        k1 k2 =
        (keyCmp t (A.m_column_ids.zip A.m_ascending ++ B.m_column_ids.zip B.m_ascending)
          k1 k2).then (idxCmp view k1 k2) := by
      unfold passCmp
      rw [hCB k1 k2 m1 m2]
      unfold passCmp
      rw [keyCmp_append, then_assoc']
    rw [hrw]
    exact hgt
  have hpermM : (sortByDescriptor (A.merge_with B) t view).Perm view :=
    sortByDescriptor_perm (A.merge_with B) t view
  apply eq_of_perm_of_pairwise (hpermM.trans (hpermSeq.trans hperm1).symm) hsortM hsortSeq
  intro a b ha hb hab hba
  have hma : a ∈ view := hpermM.subset ha
  have hmb : b ∈ view := hpermM.subset hb
  rcases hc : passCmp t
      (A.m_column_ids.zip A.m_ascending ++ B.m_column_ids.zip B.m_ascending) view a b
    with _ | _ | _
  · refine absurd ?_ hba
    rw [passCmp_swap, hc]
    rfl
  · exact passCmp_eq_imp hma hmb hc
  · exact absurd hc hab

theorem merge_with_eq_sequential_witness :
    sortByDescriptor ((SortDescriptor.ofColumns [[10]] [true]).merge_with
        (SortDescriptor.ofColumns [[11]] [true])) tableW [1, 2, 3] =
      sortByDescriptor (SortDescriptor.ofColumns [[10]] [true]) tableW
        (sortByDescriptor (SortDescriptor.ofColumns [[11]] [true]) tableW [1, 2, 3]) :=
  merge_with_eq_sequential (SortDescriptor.ofColumns [[10]] [true])
    (SortDescriptor.ofColumns [[11]] [true]) tableW [1, 2, 3]
    (by decide) (by decide) (by decide) (by decide)

end RealmSort
